import Mathlib

/-!
Verification of the rqlite read-only SQLite file reader.

The definitions below are a shallow embedding of the Rust source:
  * bytes are `Nat` values; every read masks with `% 256` (the Rust code reads `u8`);
  * `u64` arithmetic is `Nat` arithmetic with an explicit `% 2 ^ 64` where the
    source operates on a `u64` accumulator;
  * fallible Rust code (`Result`) becomes `Except Failure`; Rust panics
    (`unwrap`, `unreachable!`, debug-mode integer underflow) are modelled as
    distinguished `Failure` values so that returning an error and aborting
    are told apart;
  * the pager's page-number indirection is replaced by an inductive tree
    (`BNode`): descending into a page number yields exactly the decoded page
    content, which is what the node stores.
-/

namespace Rqlite

/-- Byte read: the Rust code always reads `u8` values, so every access is
reduced mod 256.  Out-of-range reads are modelled as 0; the Rust code would
abort there, and every use below stays in bounds. -/
def byteAt (data : List Nat) (i : Nat) : Nat :=
  data.getD i 0 % 256

/-- Big-endian u16 read (`BigEndian::read_u16`). -/
def be16 (data : List Nat) (i : Nat) : Nat :=
  byteAt data i * 256 + byteAt data (i + 1)

/-- Big-endian u32 read (`BigEndian::read_u32`). -/
def be32 (data : List Nat) (i : Nat) : Nat :=
  ((byteAt data i * 256 + byteAt data (i + 1)) * 256 + byteAt data (i + 2)) * 256
    + byteAt data (i + 3)

/-- Failure values of the reader.  The first group models Rust `Err` values
(`errors.rs` plus `format!` string errors); the second group models process
aborts.  Keeping them in one type lets a fallible computation also record the
aborts that the Rust source hides inside `unwrap`/`unreachable!`. -/
inductive Failure : Type where
  | invalidVarint : Failure
  | invalidDbHeader : Failure
  | unexpectedType : Failure
  | reservedSerialType (n : Nat) : Failure
  | panicUnreachable (n : Nat) : Failure
  | panicUnwrap (cause : Failure) : Failure
  | panicArith : Failure
  | panicAssert : Failure
  | ioError : Failure
  deriving DecidableEq

/-- A failure is a modelled process abort (as opposed to an `Err` value that
the Rust source returns to its caller). -/
def Failure.isPanic : Failure → Bool
  | .panicUnreachable _ => true
  | .panicUnwrap _ => true
  | .panicArith => true
  | .panicAssert => true
  | _ => false

/-! ## Varint codec (`util.rs::read_varint`)

The source loops over at most 8 bytes accumulating 7 bits apiece, stopping at
the first byte with bit 8 clear, and appends all 8 bits of a 9th byte when all
8 high bits were set.  The embedding also returns the number of bytes
consumed, which the Rust callers recover from the advanced `Cursor`. -/

/-- One pass of the `for i in 0..8` loop plus the 9th-byte epilogue.
`remaining` counts the loop iterations still to run.  The bit operations
appear arithmetically: `(value << 7) | (byte & 0x7F)` is
`value * 128 + byte % 128` (the or-ed ranges are disjoint),
`(value << 8) | byte` is `value * 256 + byte`, and `byte & 0x80 == 0` is
`byte % 256 < 128`. -/
def readVarintAux : Nat → Nat → Nat → List Nat → Except Failure (Nat × Nat)
  | _, _, 0, [] => .error .invalidVarint
  | value, consumed, 0, b :: _ =>
      .ok ((value * 256 + b % 256) % 2 ^ 64, consumed + 1)
  | _, _, _ + 1, [] => .error .invalidVarint
  | value, consumed, remaining + 1, b :: rest =>
      let value' := (value * 128 + b % 256 % 128) % 2 ^ 64
      if b % 256 < 128 then .ok (value', consumed + 1)
      else readVarintAux value' (consumed + 1) remaining rest

/-- The varint decoder, returning the value and the number of bytes consumed. -/
def readVarint (data : List Nat) : Except Failure (Nat × Nat) :=
  readVarintAux 0 0 8 data

theorem readVarintAux_ok_bounds :
    ∀ (remaining : Nat) (data : List Nat) (value consumed v n : Nat),
      readVarintAux value consumed remaining data = .ok (v, n) →
      consumed + 1 ≤ n ∧ n ≤ consumed + remaining + 1 ∧ n ≤ consumed + data.length := by
  intro remaining
  induction remaining with
  | zero =>
      intro data value consumed v n h
      cases data with
      | nil => simp [readVarintAux] at h
      | cons b rest =>
          simp only [readVarintAux, Except.ok.injEq, Prod.mk.injEq] at h
          obtain ⟨-, rfl⟩ := h
          simp only [List.length_cons]
          omega
  | succ m ih =>
      intro data value consumed v n h
      cases data with
      | nil => simp [readVarintAux] at h
      | cons b rest =>
          rw [readVarintAux] at h
          by_cases hb : b % 256 < 128
          · simp only [hb, if_true, Except.ok.injEq, Prod.mk.injEq] at h
            obtain ⟨-, rfl⟩ := h
            simp only [List.length_cons]
            omega
          · simp only [hb, if_false] at h
            have := ih rest _ (consumed + 1) v n h
            simp only [List.length_cons]
            omega

/-- A successful varint decode consumes between 1 and 9 bytes, and no more
than the input offers. -/
theorem readVarint_ok_bounds {data : List Nat} {v n : Nat}
    (h : readVarint data = .ok (v, n)) :
    1 ≤ n ∧ n ≤ 9 ∧ n ≤ data.length := by
  have := readVarintAux_ok_bounds 8 data 0 0 v n h
  omega

/-- The rolling accumulator of the varint loop: seven low bits per byte. -/
def varintAcc (l : List Nat) : Nat :=
  l.foldl (fun v b => (v * 128 + b % 256 % 128) % 2 ^ 64) 0

/-- If the first byte with a clear high bit is at index `i` (within the
8-byte loop), the loop stops there with the 7-bit accumulation of bytes
`0..i` and `i + 1` bytes consumed. -/
theorem readVarintAux_stop :
    ∀ (i : Nat) (data : List Nat) (remaining value consumed : Nat),
      i < remaining → i < data.length →
      (∀ j, j < i → 128 ≤ byteAt data j) → byteAt data i < 128 →
      readVarintAux value consumed remaining data =
        .ok ((data.take (i + 1)).foldl
          (fun v b => (v * 128 + b % 256 % 128) % 2 ^ 64) value, consumed + i + 1) := by
  intro i
  induction i with
  | zero =>
      intro data remaining value consumed hir hlen hprev hlow
      obtain ⟨r, rfl⟩ : ∃ r, remaining = r + 1 := ⟨remaining - 1, by omega⟩
      cases data with
      | nil => simp at hlen
      | cons b rest =>
          have hb : b % 256 < 128 := by
            simpa [byteAt] using hlow
          rw [readVarintAux]
          simp [hb]
  | succ i ih =>
      intro data remaining value consumed hir hlen hprev hlow
      obtain ⟨r, rfl⟩ : ∃ r, remaining = r + 1 := ⟨remaining - 1, by omega⟩
      cases data with
      | nil => simp at hlen
      | cons b rest =>
          have hb : ¬ b % 256 < 128 := by
            have h0 := hprev 0 (by omega)
            simp only [byteAt, List.getD_cons_zero] at h0
            omega
          rw [readVarintAux]
          simp only [hb, if_false]
          have hrec := ih rest r ((value * 128 + b % 256 % 128) % 2 ^ 64) (consumed + 1)
            (by omega) (by simp at hlen; omega)
            (fun j hj => by
              have := hprev (j + 1) (by omega)
              simpa [byteAt, List.getD_cons_succ] using this)
            (by simpa [byteAt, List.getD_cons_succ] using hlow)
          rw [hrec]
          simp only [List.take_succ_cons, List.foldl_cons, Except.ok.injEq, Prod.mk.injEq]
          exact ⟨trivial, by omega⟩

/-- If all bytes of the remaining loop budget have their high bit set and a
further byte exists, the loop falls through to the epilogue, which appends
all 8 bits of that byte. -/
theorem readVarintAux_all_high :
    ∀ (remaining : Nat) (data : List Nat) (value consumed : Nat),
      remaining + 1 ≤ data.length →
      (∀ j, j < remaining → 128 ≤ byteAt data j) →
      readVarintAux value consumed remaining data =
        .ok (((data.take remaining).foldl
            (fun v b => (v * 128 + b % 256 % 128) % 2 ^ 64) value * 256 +
          byteAt data remaining) % 2 ^ 64, consumed + remaining + 1) := by
  intro remaining
  induction remaining with
  | zero =>
      intro data value consumed hlen hhigh
      cases data with
      | nil => simp at hlen
      | cons b rest =>
          rw [readVarintAux]
          simp [byteAt]
  | succ m ih =>
      intro data value consumed hlen hhigh
      cases data with
      | nil => simp at hlen
      | cons b rest =>
          have hb : ¬ b % 256 < 128 := by
            have h0 := hhigh 0 (by omega)
            simp only [byteAt, List.getD_cons_zero] at h0
            omega
          rw [readVarintAux]
          simp only [hb, if_false]
          have hrec := ih rest ((value * 128 + b % 256 % 128) % 2 ^ 64) (consumed + 1)
            (by simp at hlen; omega)
            (fun j hj => by
              have := hhigh (j + 1) (by omega)
              simpa [byteAt, List.getD_cons_succ] using this)
          rw [hrec]
          simp only [List.take_succ_cons, List.foldl_cons, byteAt, List.getD_cons_succ,
            Except.ok.injEq, Prod.mk.injEq]
          exact ⟨trivial, by omega⟩

/-- The loop fails exactly when the input runs out before a terminating
byte: fewer than `remaining + 1` bytes and every available byte in the loop
budget has its high bit set. -/
theorem readVarintAux_error_iff :
    ∀ (remaining : Nat) (data : List Nat) (value consumed : Nat),
      readVarintAux value consumed remaining data = .error .invalidVarint ↔
        data.length < remaining + 1 ∧
          ∀ i, i < data.length → i < remaining → 128 ≤ byteAt data i := by
  intro remaining
  induction remaining with
  | zero =>
      intro data value consumed
      cases data with
      | nil => simp [readVarintAux]
      | cons b rest => simp [readVarintAux]
  | succ m ih =>
      intro data value consumed
      cases data with
      | nil =>
          simp [readVarintAux]
      | cons b rest =>
          rw [readVarintAux]
          by_cases hb : b % 256 < 128
          · simp only [hb, if_true]
            constructor
            · intro h
              cases h
            · rintro ⟨-, hall⟩
              have := hall 0 (by simp) (by omega)
              simp only [byteAt, List.getD_cons_zero] at this
              omega
          · simp only [hb, if_false]
            rw [ih rest]
            constructor
            · rintro ⟨hl, hall⟩
              refine ⟨by simp; omega, fun i hi hm => ?_⟩
              match i with
              | 0 =>
                  simp only [byteAt, List.getD_cons_zero]
                  omega
              | i + 1 =>
                  have := hall i (by simp at hi; omega) (by omega)
                  simpa [byteAt, List.getD_cons_succ] using this
            · rintro ⟨hl, hall⟩
              refine ⟨by simp at hl; omega, fun i hi hm => ?_⟩
              have := hall (i + 1) (by simp; omega) (by omega)
              simpa [byteAt, List.getD_cons_succ] using this

/-! ## Range predicates (`btree/range.rs`) -/

inductive RangeComparison : Type where
  | less : RangeComparison
  | inRange : RangeComparison
  | upperBoundary : RangeComparison
  | greater : RangeComparison
  deriving DecidableEq

/-- `RangeAll::compare`: always in range. -/
def rangeAll {K : Type} : K → RangeComparison := fun _ => .inRange

/-- `RangeOne::compare`: `key.cmp(&self.0)` mapped to
Less / UpperBoundary / Greater. -/
def rangeOne {K : Type} [LinearOrder K] (target : K) : K → RangeComparison :=
  fun key =>
    match compare key target with
    | .lt => .less
    | .eq => .upperBoundary
    | .gt => .greater

/-! ## The B-tree cursor (`btree/mod.rs`)

A tree node is the decoded content of one page: a leaf page holds its leaf
cells, an interior page holds its cells (each an interior-cell value paired
with the subtree its left pointer leads to) plus the right-pointer subtree.
`descend(page_num)` in the source loads and classifies a page; here it
receives the node directly. -/

inductive BNode (I L : Type) : Type where
  | leaf (cells : List L) : BNode I L
  | interior (cells : List (I × BNode I L)) (right : BNode I L) : BNode I L

mutual

/-- Number of cells and pages in a tree; only used for termination measures. -/
def BNode.size {I L : Type} : BNode I L → Nat
  | .leaf cells => 1 + cells.length
  | .interior cells right => 1 + BNode.size right + BNode.sizeList cells

/-- Size contributed by a list of interior cells (left subtrees plus one unit
per cell); only used for termination measures. -/
def BNode.sizeList {I L : Type} : List (I × BNode I L) → Nat
  | [] => 0
  | (_, t) :: rest => 1 + BNode.size t + BNode.sizeList rest

end

theorem BNode.size_pos {I L : Type} (t : BNode I L) : 1 ≤ t.size := by
  cases t <;> (simp [BNode.size]; try omega)

/-- Cursor state: the stack of in-progress interior scans (`None` entries are
the sentinels pushed before descending a right pointer; the head of the list
is the top of the `Vec` stack), the current leaf scan, and the last
comparison. -/
structure IterState (I L : Type) : Type where
  interiors : List (Option (List (I × BNode I L) × BNode I L))
  leaf : Option (List L)
  lastComparison : RangeComparison

/-- `BTreeIter::descend`: classify the target page and install it. -/
def descend {I L : Type} (s : IterState I L) (node : BNode I L) : IterState I L :=
  match node with
  | .leaf cells => { s with leaf := some cells }
  | .interior cells right => { s with interiors := some (cells, right) :: s.interiors }

/-- Size of one interior-stack entry, used only for termination. -/
def entrySize {I L : Type} : Option (List (I × BNode I L) × BNode I L) → Nat
  | none => 0
  | some (cells, right) => 1 + BNode.sizeList cells + right.size

/-- Size of the pending leaf scan, used only for termination. -/
def leafSize {L : Type} : Option (List L) → Nat
  | none => 0
  | some cells => 1 + cells.length

/-- Every iteration of the `loop` in `BTreeIter::next` strictly decreases
this quantity. -/
def iterMeasure {I L : Type} (s : IterState I L) : Nat :=
  2 * ((s.interiors.map entrySize).sum + leafSize s.leaf) + s.interiors.length

theorem iterMeasure_descend_le {I L : Type}
    (ints : List (Option (List (I × BNode I L) × BNode I L)))
    (lastC : RangeComparison) (t : BNode I L) :
    iterMeasure (descend ⟨ints, none, lastC⟩ t) ≤
      2 * ((ints.map entrySize).sum + t.size) + ints.length + 1 := by
  cases t with
  | leaf cells =>
      simp only [descend, iterMeasure, leafSize, BNode.size]; omega
  | interior cells right =>
      simp only [descend, iterMeasure, leafSize, entrySize, BNode.size,
        List.map_cons, List.sum_cons, List.length_cons]
      omega

/-- `BTreeIter::next`: one call of the iterator, written as the source's
`loop` with each `continue` a recursive call.  `compare` stores its result in
`lastComparison` exactly where the source does. -/
def btreeNext {K I L : Type} (cmp : K → RangeComparison) (ikey : I → K) (lkey : L → K) :
    IterState I L → Option (L × IterState I L)
  | ⟨ints, some (cell :: rest), _⟩ =>
      match cmp (lkey cell) with
      | .less => btreeNext cmp ikey lkey ⟨ints, some rest, .less⟩
      | .inRange => some (cell, ⟨ints, some rest, .inRange⟩)
      | .upperBoundary => btreeNext cmp ikey lkey ⟨ints, none, .upperBoundary⟩
      | .greater => btreeNext cmp ikey lkey ⟨ints, none, .greater⟩
  | ⟨ints, some [], lastC⟩ => btreeNext cmp ikey lkey ⟨ints, none, lastC⟩
  | ⟨some ((ic, child) :: cellsRest, right) :: tl, none, _⟩ =>
      match cmp (ikey ic) with
      | .greater => btreeNext cmp ikey lkey ⟨some (cellsRest, right) :: tl, none, .greater⟩
      | c => btreeNext cmp ikey lkey (descend ⟨some (cellsRest, right) :: tl, none, c⟩ child)
  | ⟨some ([], right) :: tl, none, lastC⟩ =>
      match lastC with
      | .upperBoundary => btreeNext cmp ikey lkey ⟨tl, none, .upperBoundary⟩
      | .greater => btreeNext cmp ikey lkey ⟨tl, none, .greater⟩
      | c => btreeNext cmp ikey lkey (descend ⟨none :: tl, none, c⟩ right)
  | ⟨none :: tl, none, lastC⟩ => btreeNext cmp ikey lkey ⟨tl, none, lastC⟩
  | ⟨[], none, _⟩ => none
termination_by s => iterMeasure s
decreasing_by
  all_goals
    simp only [iterMeasure, entrySize, leafSize, BNode.sizeList, List.map_cons,
      List.sum_cons, List.length_cons]
  all_goals
    first
      | omega
      | (have hsp := BNode.size_pos child; omega)
      | (have hsp := BNode.size_pos right; omega)
      | (have h := iterMeasure_descend_le (some (cellsRest, right) :: tl) c child
         simp only [iterMeasure, entrySize, leafSize, BNode.sizeList, List.map_cons,
           List.sum_cons, List.length_cons] at h
         omega)
      | (have h := iterMeasure_descend_le (none :: tl) c right
         simp only [iterMeasure, entrySize, leafSize, BNode.sizeList, List.map_cons,
           List.sum_cons, List.length_cons] at h
         omega)

theorem iterMeasure_step_cell {I L : Type} (ic : I) (child : BNode I L)
    (cellsRest : List (I × BNode I L)) (right : BNode I L)
    (tl : List (Option (List (I × BNode I L) × BNode I L)))
    (c lastC : RangeComparison) :
    iterMeasure (descend ⟨some (cellsRest, right) :: tl, none, c⟩ child) <
      iterMeasure ⟨some ((ic, child) :: cellsRest, right) :: tl, none, lastC⟩ := by
  have h := iterMeasure_descend_le (some (cellsRest, right) :: tl) c child
  simp only [iterMeasure, entrySize, leafSize, BNode.sizeList, List.map_cons,
    List.sum_cons, List.length_cons] at h ⊢
  omega

theorem iterMeasure_step_right {I L : Type} (right : BNode I L)
    (tl : List (Option (List (I × BNode I L) × BNode I L)))
    (c lastC : RangeComparison) :
    iterMeasure (descend ⟨none :: tl, none, c⟩ right) <
      iterMeasure ⟨some ([], right) :: tl, none, lastC⟩ := by
  have h := iterMeasure_descend_le (none :: tl) c right
  simp only [iterMeasure, entrySize, leafSize, BNode.sizeList, List.map_cons,
    List.sum_cons, List.length_cons] at h ⊢
  omega

/-- When `next` yields a cell, the new state is strictly smaller: the
iterator makes progress. -/
theorem btreeNext_lt {K I L : Type} (cmp : K → RangeComparison) (ikey : I → K)
    (lkey : L → K) (s : IterState I L) :
    ∀ cOut s', btreeNext cmp ikey lkey s = some (cOut, s') →
      iterMeasure s' < iterMeasure s := by
  induction s using btreeNext.induct cmp ikey lkey with
  | case1 ints cell rest lastC hc ih =>
      intro cOut s' h
      rw [btreeNext] at h
      simp only [hc] at h
      have := ih cOut s' h
      simp only [iterMeasure, leafSize, List.length_cons] at this ⊢
      omega
  | case2 ints cell rest lastC hc =>
      intro cOut s' h
      rw [btreeNext] at h
      simp only [hc, Option.some.injEq, Prod.mk.injEq] at h
      obtain ⟨-, rfl⟩ := h
      simp only [iterMeasure, leafSize, List.length_cons]
      omega
  | case3 ints cell rest lastC hc ih =>
      intro cOut s' h
      rw [btreeNext] at h
      simp only [hc] at h
      have := ih cOut s' h
      simp only [iterMeasure, leafSize, List.length_cons] at this ⊢
      omega
  | case4 ints cell rest lastC hc ih =>
      intro cOut s' h
      rw [btreeNext] at h
      simp only [hc] at h
      have := ih cOut s' h
      simp only [iterMeasure, leafSize, List.length_cons] at this ⊢
      omega
  | case5 ints lastC ih =>
      intro cOut s' h
      rw [btreeNext] at h
      have := ih cOut s' h
      simp only [iterMeasure, leafSize] at this ⊢
      omega
  | case6 ic child cellsRest right tl lastC hc ih =>
      intro cOut s' h
      rw [btreeNext] at h
      simp only [hc] at h
      have := ih cOut s' h
      have hp := BNode.size_pos child
      simp only [iterMeasure, entrySize, leafSize, BNode.sizeList, List.map_cons,
        List.sum_cons, List.length_cons] at this ⊢
      omega
  | case7 ic child cellsRest right tl lastC hc ih =>
      intro cOut s' h
      rw [btreeNext] at h
      have hstep := iterMeasure_step_cell ic child cellsRest right tl
        (cmp (ikey ic)) lastC
      cases hcc : cmp (ikey ic) with
      | greater => exact absurd hcc hc
      | less =>
          rw [hcc] at h ih hstep
          exact lt_trans (ih cOut s' h) hstep
      | inRange =>
          rw [hcc] at h ih hstep
          exact lt_trans (ih cOut s' h) hstep
      | upperBoundary =>
          rw [hcc] at h ih hstep
          exact lt_trans (ih cOut s' h) hstep
  | case8 right tl ih =>
      intro cOut s' h
      rw [btreeNext] at h
      have := ih cOut s' h
      have hp := BNode.size_pos right
      simp only [iterMeasure, entrySize, leafSize, BNode.sizeList, List.map_cons,
        List.sum_cons, List.length_cons] at this ⊢
      omega
  | case9 right tl ih =>
      intro cOut s' h
      rw [btreeNext] at h
      have := ih cOut s' h
      have hp := BNode.size_pos right
      simp only [iterMeasure, entrySize, leafSize, BNode.sizeList, List.map_cons,
        List.sum_cons, List.length_cons] at this ⊢
      omega
  | case10 right tl c hub hgt ih =>
      intro cOut s' h
      have hstep := iterMeasure_step_right right tl c c
      cases c with
      | upperBoundary => exact absurd rfl hub
      | greater => exact absurd rfl hgt
      | less =>
          simp only [btreeNext] at h
          exact lt_trans (ih cOut s' h) hstep
      | inRange =>
          simp only [btreeNext] at h
          exact lt_trans (ih cOut s' h) hstep
  | case11 tl lastC ih =>
      intro cOut s' h
      rw [btreeNext] at h
      have := ih cOut s' h
      simp only [iterMeasure, List.map_cons, List.sum_cons, entrySize,
        List.length_cons] at this ⊢
      omega
  | case12 lastC =>
      intro cOut s' h
      rw [btreeNext] at h
      exact absurd h (by simp)

/-- Collecting the iterator (`Iterator::collect` over `BTreeIter`). -/
def btreeRun {K I L : Type} (cmp : K → RangeComparison) (ikey : I → K) (lkey : L → K)
    (s : IterState I L) : List L :=
  match h : btreeNext cmp ikey lkey s with
  | none => []
  | some (cell, s') => cell :: btreeRun cmp ikey lkey s'
termination_by iterMeasure s
decreasing_by exact btreeNext_lt cmp ikey lkey s cell s' h

theorem btreeRun_eq_nil {K I L : Type} {cmp : K → RangeComparison} {ikey : I → K}
    {lkey : L → K} {s : IterState I L} (h : btreeNext cmp ikey lkey s = none) :
    btreeRun cmp ikey lkey s = [] := by
  rw [btreeRun]
  split
  · rfl
  · next heq => rw [h] at heq; cases heq

theorem btreeRun_eq_cons {K I L : Type} {cmp : K → RangeComparison} {ikey : I → K}
    {lkey : L → K} {s s' : IterState I L} {c : L}
    (h : btreeNext cmp ikey lkey s = some (c, s')) :
    btreeRun cmp ikey lkey s = c :: btreeRun cmp ikey lkey s' := by
  rw [btreeRun]
  split
  · next heq => rw [h] at heq; cases heq
  · next cell s₂ heq =>
      rw [h] at heq
      simp only [Option.some.injEq, Prod.mk.injEq] at heq
      obtain ⟨rfl, rfl⟩ := heq
      rfl

/-- Unfolding equation for `btreeRun` with a non-dependent match, suitable
for stepwise rewriting on concrete states. -/
theorem btreeRun_eq {K I L : Type} (cmp : K → RangeComparison) (ikey : I → K)
    (lkey : L → K) (s : IterState I L) :
    btreeRun cmp ikey lkey s =
      match btreeNext cmp ikey lkey s with
      | none => []
      | some (cell, s') => cell :: btreeRun cmp ikey lkey s' := by
  cases h : btreeNext cmp ikey lkey s with
  | none => rw [btreeRun_eq_nil h]
  | some p => obtain ⟨c, s'⟩ := p; rw [btreeRun_eq_cons h]

/-- `BTree::iter_range`: fresh state, descend the root, then iterate.  The
source returns the iterator; all callers collect it, so the embedding
returns the collected list. -/
def iterRange {K I L : Type} (cmp : K → RangeComparison) (ikey : I → K) (lkey : L → K)
    (root : BNode I L) : List L :=
  btreeRun cmp ikey lkey (descend ⟨[], none, .inRange⟩ root)

/-- `BTree::iter`: a full scan (the `All` range). -/
def btreeIter {K I L : Type} (ikey : I → K) (lkey : L → K) (root : BNode I L) : List L :=
  iterRange rangeAll ikey lkey root

/-- `BTree::get`: a `One(key)` range, an assertion that at most one cell
matched (a failed assertion aborts, modelled as `.error`), then `Vec::pop`
(the last element, if any). -/
def btreeGet {K I L : Type} [LinearOrder K] (ikey : I → K) (lkey : L → K)
    (root : BNode I L) (key : K) : Except Failure (Option L) :=
  let cells := iterRange (rangeOne key) ikey lkey root
  if 1 < cells.length then .error .panicAssert else .ok cells.getLast?

/-! ## The leaf cells of a tree, in cursor order -/

mutual

/-- All leaf cells of a tree, left to right. -/
def allCells {I L : Type} : BNode I L → List L
  | .leaf cells => cells
  | .interior cells right => allCellsList cells ++ allCells right

/-- Leaf cells below a list of interior cells, left to right. -/
def allCellsList {I L : Type} : List (I × BNode I L) → List L
  | [] => []
  | (_, t) :: rest => allCells t ++ allCellsList rest

end

/-- Leaf cells still to be visited below one interior-stack entry. -/
def entryCells {I L : Type} : Option (List (I × BNode I L) × BNode I L) → List L
  | none => []
  | some (cells, right) => allCellsList cells ++ allCells right

/-- Leaf cells still to be visited from a cursor state. -/
def stateCells {I L : Type} (s : IterState I L) : List L :=
  (match s.leaf with
    | none => []
    | some cells => cells) ++ (s.interiors.map entryCells).flatten

theorem stateCells_descend {I L : Type}
    (ints : List (Option (List (I × BNode I L) × BNode I L)))
    (lastC : RangeComparison) (t : BNode I L) :
    stateCells (descend ⟨ints, none, lastC⟩ t) =
      allCells t ++ (ints.map entryCells).flatten := by
  cases t with
  | leaf cells => simp [descend, stateCells, allCells]
  | interior cells right =>
      simp [descend, stateCells, allCells, entryCells]

/-! ## B-tree well-formedness

The data-model invariants of spec section 3 together with the ordering facts
of section 4.7: leaf cells ascend strictly, interior cells ascend strictly,
an interior cell's key bounds every key of its left subtree from above, and
every key of a subtree is strictly greater than the interior key preceding
it (the right child holds keys greater than every cell key). -/

/-- Strictly above an optional lower bound. -/
def OBelow {K : Type} [LinearOrder K] : Option K → K → Prop
  | none, _ => True
  | some b, k => b < k

mutual

inductive WfNode {K I L : Type} [LinearOrder K] (ikey : I → K) (lkey : L → K) :
    Option K → BNode I L → Prop where
  | leaf : ∀ (lb : Option K) (cells : List L),
      cells.Pairwise (fun a b => lkey a < lkey b) →
      (∀ x ∈ cells, OBelow lb (lkey x)) →
      WfNode ikey lkey lb (.leaf cells)
  | interior : ∀ (lb : Option K) (cells : List (I × BNode I L)) (right : BNode I L),
      WfCells ikey lkey lb cells right →
      WfNode ikey lkey lb (.interior cells right)

inductive WfCells {K I L : Type} [LinearOrder K] (ikey : I → K) (lkey : L → K) :
    Option K → List (I × BNode I L) → BNode I L → Prop where
  | nil : ∀ (lb : Option K) (right : BNode I L),
      WfNode ikey lkey lb right →
      WfCells ikey lkey lb [] right
  | cons : ∀ (lb : Option K) (ic : I) (t : BNode I L)
      (rest : List (I × BNode I L)) (right : BNode I L),
      OBelow lb (ikey ic) →
      WfNode ikey lkey lb t →
      (∀ x ∈ allCells t, lkey x ≤ ikey ic) →
      WfCells ikey lkey (some (ikey ic)) rest right →
      WfCells ikey lkey lb ((ic, t) :: rest) right

end

mutual

/-- A well-formed tree's leaf cells are strictly ascending by key and above
the lower bound. -/
theorem wfNode_sorted {K I L : Type} [LinearOrder K] {ikey : I → K} {lkey : L → K}
    {lb : Option K} {t : BNode I L} (h : WfNode ikey lkey lb t) :
    (allCells t).Pairwise (fun a b => lkey a < lkey b) ∧
      ∀ x ∈ allCells t, OBelow lb (lkey x) :=
  match t, h with
  | .leaf _, .leaf _ _ hp hb => by
      constructor
      · simpa [allCells] using hp
      · simpa [allCells] using hb
  | .interior _ _, .interior _ _ _ hc => by
      have := wfCells_sorted hc
      simpa [allCells] using this
termination_by 2 * t.size
decreasing_by
  simp_wf
  simp only [BNode.size, BNode.sizeList]
  omega

/-- As `wfNode_sorted`, for the tail of an interior page. -/
theorem wfCells_sorted {K I L : Type} [LinearOrder K] {ikey : I → K} {lkey : L → K}
    {lb : Option K} {cells : List (I × BNode I L)} {right : BNode I L}
    (h : WfCells ikey lkey lb cells right) :
    (allCellsList cells ++ allCells right).Pairwise (fun a b => lkey a < lkey b) ∧
      ∀ x ∈ allCellsList cells ++ allCells right, OBelow lb (lkey x) :=
  match cells, h with
  | [], .nil _ _ hr => by
      have := wfNode_sorted hr
      simpa [allCellsList] using this
  | _ :: _, .cons _ ic t rest _ hlb ht hub hrest => by
      obtain ⟨htp, htb⟩ := wfNode_sorted ht
      obtain ⟨hrp, hrb⟩ := wfCells_sorted hrest
      have hcross : ∀ a ∈ allCells t, ∀ b ∈ allCellsList rest ++ allCells right,
          lkey a < lkey b := by
        intro a ha b hb
        have h1 : lkey a ≤ ikey ic := hub a ha
        have h2 : ikey ic < lkey b := hrb b hb
        exact lt_of_le_of_lt h1 h2
      constructor
      · simp only [allCellsList, List.append_assoc]
        exact List.pairwise_append.mpr ⟨htp, hrp, hcross⟩
      · intro x hx
        simp only [allCellsList, List.append_assoc, List.mem_append] at hx
        rcases hx with hx | hx
        · exact htb x hx
        · have h2 : ikey ic < lkey x := hrb x (List.mem_append.mpr hx)
          cases lb with
          | none => trivial
          | some b => exact lt_trans hlb h2
termination_by 2 * (BNode.sizeList cells + right.size) + 1
decreasing_by
  all_goals simp_wf
  all_goals simp only [BNode.size, BNode.sizeList]
  all_goals omega

end

/-! ## Record decoder (`record.rs`) -/

inductive FieldType : Type where
  | null : FieldType
  | u8 : FieldType
  | u16 : FieldType
  | u24 : FieldType
  | u32 : FieldType
  | u48 : FieldType
  | u64 : FieldType
  | f64 : FieldType
  | zero : FieldType
  | one : FieldType
  | blob (len : Nat) : FieldType
  | str (len : Nat) : FieldType
  deriving DecidableEq

/-- `FieldType::size_of`. -/
def FieldType.size_of : FieldType → Nat
  | .null => 0
  | .u8 => 1
  | .u16 => 2
  | .u24 => 3
  | .u32 => 4
  | .u48 => 6
  | .u64 => 8
  | .f64 => 8
  | .zero => 0
  | .one => 0
  | .blob len => len
  | .str len => len

/-- `LiteralValue`.  Integers are `u64` values (`Nat < 2 ^ 64`); an `f64` is
kept as its 8 raw big-endian bytes (no claim interprets float payloads). -/
inductive LiteralValue : Type where
  | null : LiteralValue
  | integer (i : Nat) : LiteralValue
  | float (raw : List Nat) : LiteralValue
  | blob (bytes : List Nat) : LiteralValue
  | str (s : List Nat) : LiteralValue
  deriving DecidableEq

/-- `LazyValue`: byte slices decoded on demand. -/
inductive LazyValue : Type where
  | blob (bytes : List Nat) : LazyValue
  | str (bytes : List Nat) : LazyValue
  deriving DecidableEq

inductive Field : Type where
  | lazy (v : LazyValue) : Field
  | literal (v : LiteralValue) : Field
  deriving DecidableEq

/-- The `Type` enum of `types.rs`. -/
inductive SqlType : Type where
  | null : SqlType
  | integer : SqlType
  | float : SqlType
  | blob : SqlType
  | text : SqlType
  deriving DecidableEq

namespace Field

/-- `Field::from_bytes`: materialize a field of the given type from its
payload slice.  Integer payloads are read big-endian and zero-extended into
the `u64` (the source widens each `u8` with `as u64` and ors shifted bytes;
or-ing shifted disjoint byte ranges appears here as multiply-and-add). -/
def from_bytes (ty : FieldType) (bytes : List Nat) : Field :=
  match ty with
  | .null => .literal .null
  | .u8 => .literal (.integer (byteAt bytes 0))
  | .u16 => .literal (.integer (be16 bytes 0))
  | .u24 => .literal (.integer
      (byteAt bytes 0 * 2 ^ 16 + byteAt bytes 1 * 2 ^ 8 + byteAt bytes 2))
  | .u32 => .literal (.integer (be32 bytes 0))
  | .u48 => .literal (.integer
      (byteAt bytes 0 * 2 ^ 40 + byteAt bytes 1 * 2 ^ 32 + byteAt bytes 2 * 2 ^ 24 +
        byteAt bytes 3 * 2 ^ 16 + byteAt bytes 4 * 2 ^ 8 + byteAt bytes 5))
  | .u64 => .literal (.integer
      ((((((((byteAt bytes 0 * 256 + byteAt bytes 1) * 256 + byteAt bytes 2) * 256 +
        byteAt bytes 3) * 256 + byteAt bytes 4) * 256 + byteAt bytes 5) * 256 +
        byteAt bytes 6) * 256 + byteAt bytes 7)))
  | .f64 => .literal (.float bytes)
  | .zero => .literal (.integer 0)
  | .one => .literal (.integer 1)
  | .blob _ => .lazy (.blob bytes)
  | .str _ => .lazy (.str bytes)

/-- `Field::ty`. -/
def ty : Field → SqlType
  | .literal .null => .null
  | .literal (.integer _) => .integer
  | .literal (.float _) => .float
  | .literal (.blob _) => .blob
  | .literal (.str _) => .text
  | .lazy (.blob _) => .blob
  | .lazy (.str _) => .text

/-- `Field::as_null`. -/
def as_null (f : Field) : Except Failure Unit :=
  match f.ty with
  | .null => .ok ()
  | _ => .error .unexpectedType

/-- `Field::as_integer`: returns the stored `u64`; only literal integers
match. -/
def as_integer (f : Field) : Except Failure Nat :=
  match f with
  | .literal (.integer i) => .ok i
  | _ => .error .unexpectedType

/-- `Field::as_blob`. -/
def as_blob (f : Field) : Except Failure (List Nat) :=
  match f with
  | .literal (.blob bytes) => .ok bytes
  | .lazy (.blob bytes) => .ok bytes
  | _ => .error .unexpectedType

/-- `Field::as_text`.  Text payloads are compared as their raw bytes; the
UTF-8 validation of `str::from_utf8` is not modelled (byte order and
code-point order agree on valid UTF-8, and no claim exercises invalid
text payloads). -/
def as_text (f : Field) : Except Failure (List Nat) :=
  match f with
  | .literal (.str s) => .ok s
  | .lazy (.str bytes) => .ok bytes
  | _ => .error .unexpectedType

end Field

/-- A decoded record: its field list. -/
structure Record : Type where
  fields : List Field
  deriving DecidableEq

/-- The serial-type match in `Record::from_bytes`.  Types 10 and 11 return
an error (`Err(format!(..))`); the guards `n > 12` and `n > 13` are the
source's, so 12 and 13 fall through to the `unreachable!()` arm, modelled
as a distinguished abort value. -/
def fieldTypeOfSerial (n : Nat) : Except Failure FieldType :=
  if n = 0 then .ok .null
  else if n = 1 then .ok .u8
  else if n = 2 then .ok .u16
  else if n = 3 then .ok .u24
  else if n = 4 then .ok .u32
  else if n = 5 then .ok .u48
  else if n = 6 then .ok .u64
  else if n = 7 then .ok .f64
  else if n = 8 then .ok .zero
  else if n = 9 then .ok .one
  else if n = 10 ∨ n = 11 then .error (.reservedSerialType n)
  else if n > 12 ∧ n % 2 = 0 then .ok (.blob ((n - 12) / 2))
  else if n > 13 ∧ n % 2 = 1 then .ok (.str ((n - 13) / 2))
  else .error (.panicUnreachable n)

/-- The `while cursor.position() < header_size` loop of `Record::from_bytes`:
read serial-type varints until the cursor reaches the header size, returning
the field types and the final cursor position.  The loop guard
`pos < hsize` is carried as the positivity of `gas = hsize - pos`, which
every call maintains exactly (`gas + 1 - consumed = hsize - (pos +
consumed)` when `gas + 1 = hsize - pos`). -/
def readSerialTypesGo (bytes : List Nat) (hsize : Nat) :
    Nat → Nat → Except Failure (List FieldType × Nat)
  | pos, 0 => .ok ([], pos)
  | pos, gas + 1 =>
      match hv : readVarint (bytes.drop pos) with
      | .error e => .error e
      | .ok (serial, consumed) =>
          match fieldTypeOfSerial serial with
          | .error e => .error e
          | .ok ty =>
              match readSerialTypesGo bytes hsize (pos + consumed) (gas + 1 - consumed) with
              | .error e => .error e
              | .ok (types, last) => .ok (ty :: types, last)
termination_by pos gas => gas
decreasing_by
  have h1 := (readVarint_ok_bounds hv).1
  omega

/-- The serial-type loop entered at cursor position `pos` with header size
`hsize`. -/
def readSerialTypes (bytes : List Nat) (pos hsize : Nat) :
    Except Failure (List FieldType × Nat) :=
  readSerialTypesGo bytes hsize pos (hsize - pos)

/-- The field-slicing `map` of `Record::from_bytes`: each field takes
`size_of` bytes starting at the running offset.  The source's
`Bytes::slice(offset, offset + size)` aborts when the end exceeds the
buffer; the model truncates instead, and every claim stays in bounds. -/
def buildFields (bytes : List Nat) : Nat → List FieldType → List Field
  | _, [] => []
  | offset, ty :: rest =>
      Field.from_bytes ty ((bytes.drop offset).take ty.size_of) ::
        buildFields bytes (offset + ty.size_of) rest

/-- `Record::from_bytes`: varint header size, serial types up to the header
size, then the payload sliced field by field. -/
def Record.from_bytes (bytes : List Nat) : Except Failure Record :=
  match readVarint bytes with
  | .error e => .error e
  | .ok (header_size, consumed) =>
      match readSerialTypes bytes consumed header_size with
      | .error e => .error e
      | .ok (types, offset) => .ok ⟨buildFields bytes offset types⟩

/-! ## Table cells (`table.rs`) -/

structure TableLeafCell : Type where
  row_id : Nat
  record : Record
  deriving DecidableEq

/-- `TableLeafCell::from_bytes`: varint payload length, varint row-id, then
the record parsed from the remainder of the slice. -/
def TableLeafCell.from_bytes (bytes : List Nat) : Except Failure TableLeafCell :=
  match readVarint bytes with
  | .error e => .error e
  | .ok (_payload_length, n1) =>
      match readVarint (bytes.drop n1) with
      | .error e => .error e
      | .ok (row_id, n2) =>
          match Record.from_bytes (bytes.drop (n1 + n2)) with
          | .error e => .error e
          | .ok record => .ok ⟨row_id, record⟩

structure TableInteriorCell : Type where
  row_id : Nat
  left : Nat
  deriving DecidableEq

/-- `TableInteriorCell::from_bytes`: reads the big-endian u32 left pointer
from the first four bytes, then reads the row-id varint from a fresh cursor
over the same slice — starting at offset 0, over the left-pointer bytes
(the source builds `Cursor::new(bytes)` anew; its own `XXX` comment asks
whether left and row-id are being read from the same bytes). -/
def TableInteriorCell.from_bytes (bytes : List Nat) : Except Failure TableInteriorCell :=
  let left := be32 bytes 0
  match readVarint bytes with
  | .error e => .error e
  | .ok (row_id, _) => .ok ⟨row_id, left⟩

/-! ## Page view (`btree/page.rs`) -/

structure Page : Type where
  data : List Nat
  header_offset : Nat
  header_length : Nat

/-- `Page::len`: the big-endian cell count at header offset 3. -/
def Page.len (p : Page) : Nat :=
  be16 p.data (p.header_offset + 3)

/-- `Page::cell`: read the `index`-th two-byte cell pointer (the pointer
array starts right after the header) and slice the page from that offset to
its end (`Bytes::slice_from`). -/
def Page.cell (p : Page) (index : Nat) : List Nat :=
  p.data.drop (be16 p.data (p.header_offset + p.header_length + 2 * index))

/-- `PageIter::next`: `None` once `idx` reaches the cell count, otherwise
decode the cell with `C::from_bytes(..).unwrap()` — a decode failure aborts
the process (modelled as `panicUnwrap`), it is not returned as an error
value. -/
def pageIterNext {C : Type} (decode : List Nat → Except Failure C) (p : Page)
    (idx : Nat) : Except Failure (Option (C × Nat)) :=
  if idx = p.len then .ok none
  else
    match decode (p.cell idx) with
    | .error e => .error (.panicUnwrap e)
    | .ok v => .ok (some (v, idx + 1))

/-! ## Index records and prefix scans (`index.rs`) -/

/-- Lexicographic ordering on byte vectors (`Vec<u8>`/`&[u8]`/`&str`
ordering in Rust). -/
def compareBytes : List Nat → List Nat → Ordering
  | [], [] => .eq
  | [], _ :: _ => .lt
  | _ :: _, [] => .gt
  | a :: as', b :: bs' =>
      match compare a b with
      | .eq => compareBytes as' bs'
      | o => o

/-- `PartialOrd for Field`: match on the stored kind, read the other field
as the same kind (a mismatch makes the source's `.expect(..)` abort —
modelled as `panicUnwrap` of the mismatch error), then compare the values.
The `f64` branch is not modelled (no claim compares float fields); the model
makes it a distinguished abort. -/
def Field.partial_cmp (self other : Field) : Except Failure (Option Ordering) :=
  match self.ty with
  | .null =>
      match other.as_null with
      | .error e => .error (.panicUnwrap e)
      | .ok _ => .ok (some .eq)
  | .integer =>
      match other.as_integer with
      | .error e => .error (.panicUnwrap e)
      | .ok o =>
          match self.as_integer with
          | .error e => .error (.panicUnwrap e)
          | .ok i => .ok (some (compare i o))
  | .float => .error (.panicUnwrap .unexpectedType)
  | .blob =>
      match other.as_blob with
      | .error e => .error (.panicUnwrap e)
      | .ok o =>
          match self.as_blob with
          | .error e => .error (.panicUnwrap e)
          | .ok i => .ok (some (compareBytes i o))
  | .text =>
      match other.as_text with
      | .error e => .error (.panicUnwrap e)
      | .ok o =>
          match self.as_text with
          | .error e => .error (.panicUnwrap e)
          | .ok i => .ok (some (compareBytes i o))

/-- The zip-loop of `IndexRange::compare`: for each probe field `this`
paired with stored field `that`, take `that.partial_cmp(this).unwrap()`
(`None` from `partial_cmp` aborts, modelled as `panicAssert`); `Equal`
moves on, `Less`/`Greater` answer immediately; an exhausted probe means
`InRange`. -/
def indexRangeCompareLoop : List (Field × Field) → Except Failure RangeComparison
  | [] => .ok .inRange
  | (this, that) :: rest =>
      match Field.partial_cmp that this with
      | .error e => .error e
      | .ok none => .error .panicAssert
      | .ok (some .eq) => indexRangeCompareLoop rest
      | .ok (some .lt) => .ok .less
      | .ok (some .gt) => .ok .greater

/-- `IndexRange::compare`: a probe longer than the stored key aborts
(`panic!`); otherwise compare field by field over the zipped lists. -/
def indexRangeCompare (probe other : Record) : Except Failure RangeComparison :=
  if probe.fields.length > other.fields.length then .error .panicAssert
  else indexRangeCompareLoop (probe.fields.zip other.fields)

/-- `Index::scan`: iterate the index B-tree under the prefix range and keep
each cell's record.  At tree level an index leaf cell is its record and an
interior cell's key is its record.  The Rust `compare` aborts on mismatched
or incomparable fields; the model totalizes those cases with an arbitrary
answer, and the theorems about `indexScan` separately assert that no
comparison aborts on the trees they consider. -/
def indexScan (t : BNode Record Record) (probe : Record) : List Record :=
  iterRange
    (fun k =>
      match indexRangeCompare probe k with
      | .ok c => c
      | .error _ => .inRange)
    id id t

/-! ## Database header and pager (`db.rs`, `pager.rs`) -/

structure DbHeader : Type where
  page_size : Nat
  reserved_byes_per_page : Nat
  num_pages : Nat
  deriving DecidableEq

/-- The 16 bytes of `"SQLite format 3\0"`. -/
def sqliteMagic : List Nat :=
  [0x53, 0x51, 0x4C, 0x69, 0x74, 0x65, 0x20, 0x66, 0x6F, 0x72, 0x6D, 0x61,
    0x74, 0x20, 0x33, 0x00]

/-- `DbHeader::parse`: the magic prefix check, then the page-size field at
offset 16 (`1` encodes 65536; otherwise it must be a power of two — checked
as `n & (n - 1) == 0` — between 512 and 32768), the reserved-bytes count at
offset 20 and the page count at offset 28. -/
def DbHeader.parse (data : List Nat) : Except Failure DbHeader :=
  if data.length < 16 ∨ data.take 16 ≠ sqliteMagic then .error .invalidDbHeader
  else
    let n := be16 data 16
    if n = 1 then
      .ok ⟨65536, byteAt data 20, be32 data 28⟩
    else if 512 ≤ n ∧ n ≤ 32768 ∧ n &&& (n - 1) = 0 then
      .ok ⟨n, byteAt data 20, be32 data 28⟩
    else .error .invalidDbHeader

/-- `Pager::open`: read the first 100 bytes (failure to fill the buffer is
chained into `InvalidDbHeader`) and parse the header from them. -/
def Pager.openFile (file : List Nat) : Except Failure DbHeader :=
  if file.length < 100 then .error .invalidDbHeader
  else DbHeader.parse (file.take 100)

/-- `Pager::get_page`: computes `number - 1` on the unsigned page number
before anything else — for page 0 the debug-mode subtraction underflow
aborts (`panicArith`) — then seeks to `(number - 1) * page_size` and
`read_exact`s one page, which is an I/O error (`ioError`) whenever the file
is too short.  The page number is never compared against
`header.num_pages`. -/
def Pager.get_page (file : List Nat) (header : DbHeader) (number : Nat) :
    Except Failure (List Nat) :=
  if number = 0 then .error .panicArith
  else
    let n := number - 1
    if file.length < n * header.page_size + header.page_size then .error .ioError
    else .ok ((file.drop (n * header.page_size)).take header.page_size)

/-- A positive number with `n &&& (n - 1) = 0` is a power of two, and
conversely. -/
theorem and_pred_eq_zero_iff_pow {n : Nat} (hpos : 0 < n) :
    n &&& (n - 1) = 0 ↔ ∃ k, n = 2 ^ k := by
  constructor
  · intro h
    obtain ⟨i, hi, hmax⟩ := Nat.exists_most_significant_bit (by omega : n ≠ 0)
    refine ⟨i, Nat.eq_of_testBit_eq fun j => ?_⟩
    rcases lt_trichotomy j i with hj | rfl | hj
    · rw [Nat.testBit_two_pow_of_ne (by omega : i ≠ j)]
      by_contra hne
      have hj' : n.testBit j = true := by
        revert hne
        cases n.testBit j <;> simp
      have hmod : n % 2 ^ i ≠ 0 := by
        intro h0
        have hmt := Nat.testBit_mod_two_pow n i j
        rw [h0, Nat.zero_testBit, hj'] at hmt
        simp [hj] at hmt
      have hdiv : (n - 1) / 2 ^ i = n / 2 ^ i := by
        have h1 : n % 2 ^ i < 2 ^ i := Nat.mod_lt _ (by positivity)
        have h2 : 2 ^ i * (n / 2 ^ i) + n % 2 ^ i = n := Nat.div_add_mod ..
        have h3 : n - 1 = (n % 2 ^ i - 1) + 2 ^ i * (n / 2 ^ i) := by omega
        rw [h3, Nat.add_mul_div_left _ _ (by positivity : 0 < 2 ^ i),
          Nat.div_eq_of_lt (by omega), Nat.zero_add]
      have hbit : (n - 1).testBit i = true := by
        rw [Nat.testBit_to_div_mod, hdiv, ← Nat.testBit_to_div_mod]
        exact hi
      have hland : (n &&& (n - 1)).testBit i = true := by
        rw [Nat.testBit_land, hi, hbit]
        rfl
      rw [h, Nat.zero_testBit] at hland
      cases hland
    · rw [hi, Nat.testBit_two_pow_self]
    · rw [hmax j hj, Nat.testBit_two_pow_of_ne (by omega : i ≠ j)]
  · rintro ⟨k, rfl⟩
    refine Nat.eq_of_testBit_eq fun j => ?_
    rw [Nat.testBit_land, Nat.zero_testBit]
    rcases eq_or_ne k j with rfl | hne
    · rw [Nat.testBit_eq_false_of_lt (by omega : 2 ^ k - 1 < 2 ^ k)]
      simp
    · rw [Nat.testBit_two_pow_of_ne hne]
      rfl

/-- In the range the header admits, the source's bit test agrees with the
spec's wording: a power of two between 512 and 32768, i.e. `2 ^ k` with
`9 ≤ k ≤ 15`. -/
theorem pageSize_cond_iff {n : Nat} (h1 : 512 ≤ n) (h2 : n ≤ 32768) :
    n &&& (n - 1) = 0 ↔ ∃ k, 9 ≤ k ∧ k ≤ 15 ∧ n = 2 ^ k := by
  rw [and_pred_eq_zero_iff_pow (by omega)]
  constructor
  · rintro ⟨k, rfl⟩
    have h9 : 9 ≤ k := by
      by_contra hk
      have : 2 ^ k ≤ 2 ^ 8 := Nat.pow_le_pow_right (by omega) (by omega)
      omega
    have h15 : k ≤ 15 := by
      by_contra hk
      have : 2 ^ 16 ≤ 2 ^ k := Nat.pow_le_pow_right (by omega) (by omega)
      omega
    exact ⟨k, h9, h15, rfl⟩
  · rintro ⟨k, -, -, rfl⟩
    exact ⟨k, rfl⟩

/-- Claim C8, confirmed: over any 100-byte buffer (the prefix `Pager::open`
reads and hands to `DbHeader::parse`), parsing succeeds exactly when the
buffer starts with the 16-byte magic and the big-endian u16 at offset 16 is
1 (then `page_size = 65536`) or a power of two between 512 and 32768 (then
`page_size` is that value); every failure is `InvalidDbHeader`; on success
`num_pages` is the big-endian u32 at offset 28. -/
theorem C8_db_header_parse (data : List Nat) (hlen : data.length = 100) :
    ((∃ h, DbHeader.parse data = .ok h) ↔
        data.take 16 = sqliteMagic ∧
          (be16 data 16 = 1 ∨ ∃ k, 9 ≤ k ∧ k ≤ 15 ∧ be16 data 16 = 2 ^ k)) ∧
      (∀ h, DbHeader.parse data = .ok h →
        h.page_size = (if be16 data 16 = 1 then 65536 else be16 data 16) ∧
          h.num_pages = be32 data 28 ∧
          h.reserved_byes_per_page = byteAt data 20) ∧
      ((∃ h, DbHeader.parse data = .ok h) ∨
        DbHeader.parse data = .error .invalidDbHeader) ∧
      Pager.openFile data = DbHeader.parse data := by
  have hlen16 : ¬ data.length < 16 := by omega
  have hbound : be16 data 16 ≤ 65535 := by
    have h1 : byteAt data 16 < 256 := by simp only [byteAt]; omega
    have h2 : byteAt data (16 + 1) < 256 := by simp only [byteAt]; omega
    simp only [be16]
    omega
  have hopen : Pager.openFile data = DbHeader.parse data := by
    rw [Pager.openFile, if_neg (by omega), List.take_of_length_le (by omega)]
  refine ⟨?_, ?_, ?_, hopen⟩ <;>
    (by_cases hmagic : data.take 16 = sqliteMagic)
  case _ =>
    by_cases h1 : be16 data 16 = 1
    · rw [DbHeader.parse, if_neg (by simp [hmagic, hlen16]), if_pos h1]
      exact ⟨fun _ => ⟨hmagic, Or.inl h1⟩, fun _ => ⟨_, rfl⟩⟩
    · by_cases h2 : 512 ≤ be16 data 16 ∧ be16 data 16 ≤ 32768 ∧
          be16 data 16 &&& (be16 data 16 - 1) = 0
      · rw [DbHeader.parse, if_neg (by simp [hmagic, hlen16]), if_neg h1, if_pos h2]
        refine ⟨fun _ => ⟨hmagic, Or.inr ?_⟩, fun _ => ⟨_, rfl⟩⟩
        exact (pageSize_cond_iff h2.1 h2.2.1).mp h2.2.2
      · rw [DbHeader.parse, if_neg (by simp [hmagic, hlen16]), if_neg h1, if_neg h2]
        constructor
        · rintro ⟨h, hh⟩
          cases hh
        · rintro ⟨-, hps | ⟨k, hk9, hk15, hk⟩⟩
          · exact absurd hps h1
          · exfalso
            have h512 : 512 ≤ be16 data 16 := by
              have : (2 : Nat) ^ 9 ≤ 2 ^ k := Nat.pow_le_pow_right (by omega) hk9
              omega
            have h32768 : be16 data 16 ≤ 32768 := by
              have : (2 : Nat) ^ k ≤ 2 ^ 15 := Nat.pow_le_pow_right (by omega) hk15
              omega
            exact h2 ⟨h512, h32768,
              (pageSize_cond_iff h512 h32768).mpr ⟨k, hk9, hk15, hk⟩⟩
  case _ =>
    rw [DbHeader.parse, if_pos (by simp [hmagic])]
    constructor
    · rintro ⟨h, hh⟩
      cases hh
    · rintro ⟨hm, -⟩
      exact absurd hm hmagic
  case _ =>
    intro h hh
    rw [DbHeader.parse, if_neg (by simp [hmagic, hlen16])] at hh
    by_cases h1 : be16 data 16 = 1
    · rw [if_pos h1] at hh
      simp only [Except.ok.injEq] at hh
      subst hh
      simp [h1]
    · rw [if_neg h1] at hh
      by_cases h2 : 512 ≤ be16 data 16 ∧ be16 data 16 ≤ 32768 ∧
          be16 data 16 &&& (be16 data 16 - 1) = 0
      · rw [if_pos h2] at hh
        simp only [Except.ok.injEq] at hh
        subst hh
        simp [h1]
      · rw [if_neg h2] at hh
        cases hh
  case _ =>
    intro h hh
    rw [DbHeader.parse, if_pos (by simp [hmagic])] at hh
    cases hh
  case _ =>
    rw [DbHeader.parse, if_neg (by simp [hmagic, hlen16])]
    by_cases h1 : be16 data 16 = 1
    · rw [if_pos h1]
      exact Or.inl ⟨_, rfl⟩
    · rw [if_neg h1]
      by_cases h2 : 512 ≤ be16 data 16 ∧ be16 data 16 ≤ 32768 ∧
          be16 data 16 &&& (be16 data 16 - 1) = 0
      · rw [if_pos h2]
        exact Or.inl ⟨_, rfl⟩
      · rw [if_neg h2]
        exact Or.inr rfl
  case _ =>
    rw [DbHeader.parse, if_pos (by simp [hmagic])]
    exact Or.inr rfl

/-- Witness for C8: a valid 100-byte header with page size 512 parses; the
same bytes with a corrupted first magic byte fail with `InvalidDbHeader`. -/
theorem C8_db_header_parse_witness :
    (∃ h, DbHeader.parse (sqliteMagic ++ [2, 0] ++ List.replicate 82 0) = .ok h) ∧
      DbHeader.parse (0 :: (sqliteMagic ++ [2, 0] ++ List.replicate 82 0).tail) =
        .error .invalidDbHeader := by
  constructor
  · have h := C8_db_header_parse (sqliteMagic ++ [2, 0] ++ List.replicate 82 0)
      (by decide)
    exact h.1.mpr ⟨by decide, Or.inr ⟨9, by omega, by omega, by decide⟩⟩
  · have h := C8_db_header_parse
      (0 :: (sqliteMagic ++ [2, 0] ++ List.replicate 82 0).tail) (by decide)
    rcases h.2.2.1 with ⟨hdr, hh⟩ | herr
    · exfalso
      have hmag := (h.1.mp ⟨hdr, hh⟩).1
      revert hmag
      decide
    · exact herr

/-! ## Full scans (`RangeAll`) visit every leaf cell in order -/

/-- One `next` step under the all-range: if the cursor stops, nothing was
pending; if it yields, the yielded cell was the first pending cell. -/
theorem nextAll_spec {K I L : Type} (ikey : I → K) (lkey : L → K) (s : IterState I L)
    (hl : s.lastComparison = .inRange) :
    match btreeNext (rangeAll (K := K)) ikey lkey s with
    | none => stateCells s = []
    | some (c, s') => stateCells s = c :: stateCells s' ∧ s'.lastComparison = .inRange := by
  induction s using btreeNext.induct (rangeAll (K := K)) ikey lkey with
  | case1 ints cell rest lastC hc ih => simp [rangeAll] at hc
  | case2 ints cell rest lastC hc =>
      rw [btreeNext]
      simp only [rangeAll]
      exact ⟨by simp [stateCells], by first | rfl | trivial⟩
  | case3 ints cell rest lastC hc ih => simp [rangeAll] at hc
  | case4 ints cell rest lastC hc ih => simp [rangeAll] at hc
  | case5 ints lastC ih =>
      rw [btreeNext]
      have h5 := ih hl
      have hsc : stateCells ⟨ints, some [], lastC⟩ = stateCells ⟨ints, none, lastC⟩ := by
        simp [stateCells]
      rw [hsc]
      exact h5
  | case6 ic child cellsRest right tl lastC hc ih => simp [rangeAll] at hc
  | case7 ic child cellsRest right tl lastC hc ih =>
      rw [btreeNext]
      simp only [rangeAll]
      have h7 := ih (by simp [rangeAll, descend]; cases child <;> simp [descend])
      have hsc : stateCells ⟨some ((ic, child) :: cellsRest, right) :: tl, none, lastC⟩ =
          stateCells (descend ⟨some (cellsRest, right) :: tl, none, rangeAll (ikey ic)⟩ child) := by
        rw [stateCells_descend]
        simp [stateCells, entryCells, allCellsList]
      rw [hsc]
      exact h7
  | case8 right tl ih => simp at hl
  | case9 right tl ih => simp at hl
  | case10 right tl c hub hgt ih =>
      cases c with
      | upperBoundary => exact absurd rfl hub
      | greater => exact absurd rfl hgt
      | less => simp at hl
      | inRange =>
          simp only [btreeNext]
          have h10 := ih (by cases right <;> simp [descend])
          have hsc : stateCells ⟨some ([], right) :: tl, none, .inRange⟩ =
              stateCells (descend ⟨none :: tl, none, .inRange⟩ right) := by
            rw [stateCells_descend]
            simp [stateCells, entryCells, allCellsList]
          rw [hsc]
          exact h10
  | case11 tl lastC ih =>
      rw [btreeNext]
      have h11 := ih hl
      have hsc : stateCells ⟨none :: tl, none, lastC⟩ = stateCells ⟨tl, none, lastC⟩ := by
        simp [stateCells, entryCells]
      rw [hsc]
      exact h11
  | case12 lastC =>
      rw [btreeNext]
      simp [stateCells]

/-- Collecting the all-range cursor from any in-range state yields exactly
the pending leaf cells. -/
theorem btreeRunAll_eq {K I L : Type} (ikey : I → K) (lkey : L → K) (s : IterState I L) :
    s.lastComparison = .inRange → btreeRun (rangeAll (K := K)) ikey lkey s = stateCells s := by
  induction s using btreeRun.induct (rangeAll (K := K)) ikey lkey with
  | case1 s hnone =>
      intro hl
      rw [btreeRun_eq_nil hnone]
      have hspec := nextAll_spec ikey lkey s hl
      rw [hnone] at hspec
      exact hspec.symm
  | case2 s c s' hsome ih =>
      intro hl
      rw [btreeRun_eq_cons hsome]
      have hspec := nextAll_spec ikey lkey s hl
      rw [hsome] at hspec
      rw [hspec.1, ih hspec.2]

/-! ## Concrete objects used by the claim theorems -/

/-- A record whose fields are the given integers. -/
def intRecord (xs : List Nat) : Record :=
  ⟨xs.map fun i => Field.literal (.integer i)⟩

/-- A table B-tree that is a single leaf page with one cell, row-id 5. -/
def leafOnlyTable : BNode Nat TableLeafCell :=
  .leaf [⟨5, ⟨[]⟩⟩]

/-- A two-level index B-tree over two-column integer records:
root interior page with one cell of key `(2,1)` whose left child is the leaf
`[(1,1), (2,1)]`, and right child the leaf `[(3,1)]`.  The interior key
equals the maximum key of its left subtree, as the data model requires. -/
def twoLevelIndex : BNode Record Record :=
  .interior [(intRecord [2, 1], .leaf [intRecord [1, 1], intRecord [2, 1]])]
    (.leaf [intRecord [3, 1]])

/-- A table-leaf page holding one cell whose record uses reserved serial
type 10: page type byte 0x0D, cell count 1, one cell pointer to offset 10,
and there the cell `payload_len = 2`, `row_id = 1`, record bytes `[2, 10]`. -/
def reservedSerialPage : Page :=
  ⟨[13, 0, 0, 0, 1, 0, 0, 0, 0, 10, 2, 1, 2, 10], 0, 8⟩

/-! ## The claims -/

/-- Claim C1, refuted (evidence for the code bug): take the table B-tree
that is a single leaf page with one cell of row-id 5.  The cell is present
and the `One(5)` predicate classifies it `UpperBoundary`, yet `get(5)`
returns `none`: the leaf arm of `BTreeIter::next` only emits on `InRange` —
its `_ => {}` arm drops an `UpperBoundary` cell without emitting it — so no
cell that compares `UpperBoundary` is ever yielded, and every `get` comes
back empty. -/
theorem C1_get_drops_upper_boundary_cell :
    btreeGet (fun k : Nat => k) TableLeafCell.row_id leafOnlyTable 5 = .ok none ∧
      allCells leafOnlyTable = [⟨5, ⟨[]⟩⟩] ∧
      rangeOne (5 : Nat) 5 = .upperBoundary ∧
      btreeNext (rangeOne (5 : Nat)) (fun k : Nat => k) TableLeafCell.row_id
        ⟨[], some [⟨5, ⟨[]⟩⟩], .inRange⟩ = none := by
  refine ⟨?_, by simp [leafOnlyTable, allCells], by decide, ?_⟩
  · rw [btreeGet]
    simp only [iterRange, leafOnlyTable]
    repeat
      (rw [btreeRun_eq];
        simp only [btreeNext, descend, rangeOne, compare, compareOfLessAndEq])
    simp
  · simp [btreeNext, rangeOne, compare, compareOfLessAndEq]

/-- Claim C2, refuted (evidence for the code bug): the table-interior cell
whose bytes are the big-endian u32 left-child 2 followed by the varint 5
decodes with `left = 2` but `key = 0`: `TableInteriorCell::from_bytes`
reads the row-id varint from a fresh cursor at offset 0 — over the
page-number bytes — rather than offset 4, where the varint decodes to 5. -/
theorem C2_interior_row_id_read_from_left_bytes :
    TableInteriorCell.from_bytes [0, 0, 0, 2, 5] = .ok ⟨0, 2⟩ ∧
      readVarint (List.drop 4 [0, 0, 0, 2, 5]) = .ok (5, 1) :=
  ⟨rfl, rfl⟩

/-- Claim C3, refuted for N = 12 and N = 13 (evidence for the code bug):
the serial-type match guards are `n > 12` and `n > 13`, so serial types 12
and 13 — zero-length blob and text per the format — fall through to
`unreachable!()` and abort, while every larger even (odd) serial type
decodes to a blob (text) field of `(N - 12) / 2` (`(N - 13) / 2`) payload
bytes as the claim states. -/
theorem C3_serial_12_13_hit_unreachable :
    Record.from_bytes [2, 12] = .error (.panicUnreachable 12) ∧
      Record.from_bytes [2, 13] = .error (.panicUnreachable 13) ∧
      Failure.isPanic (.panicUnreachable 12) = true ∧
      Record.from_bytes [2, 14, 65] = .ok ⟨[.lazy (.blob [65])]⟩ ∧
      Record.from_bytes [2, 16, 65, 66] = .ok ⟨[.lazy (.blob [65, 66])]⟩ ∧
      Record.from_bytes [2, 15, 67] = .ok ⟨[.lazy (.str [67])]⟩ ∧
      Record.from_bytes [2, 17, 67, 68] = .ok ⟨[.lazy (.str [67, 68])]⟩ := by
  refine ⟨?_, ?_, by decide, ?_, ?_, ?_, ?_⟩ <;>
    simp [Record.from_bytes, readSerialTypes, readSerialTypesGo, readVarint, readVarintAux,
      fieldTypeOfSerial, buildFields, Field.from_bytes, FieldType.size_of, byteAt]

/-- Claim C5, refuted (evidence for the code bug): scanning `twoLevelIndex`
with the one-field probe `(1,)` returns nothing although the stored record
`(1,1)` matches the prefix: the root interior cell's key `(2,1)` compares
`Greater`, and the `Greater` arm of the interior loop skips descending into
that cell's left child — the only subtree holding the matching run.  The
probe is shorter than every stored key and every comparison it performs
succeeds, so no panic path is involved. -/
theorem C5_prefix_scan_prunes_matching_subtree :
    indexScan twoLevelIndex (intRecord [1]) = [] ∧
      intRecord [1, 1] ∈ allCells twoLevelIndex ∧
      (intRecord [1, 1]).fields.take 1 = (intRecord [1]).fields ∧
      indexRangeCompare (intRecord [1]) (intRecord [1, 1]) = .ok .inRange ∧
      indexRangeCompare (intRecord [1]) (intRecord [2, 1]) = .ok .greater ∧
      indexRangeCompare (intRecord [1]) (intRecord [3, 1]) = .ok .greater := by
  refine ⟨?_, ?_, by decide, rfl, rfl, rfl⟩
  · rw [indexScan]
    simp only [iterRange, twoLevelIndex]
    repeat
      (rw [btreeRun_eq];
        simp only [btreeNext, descend, intRecord, indexRangeCompare, indexRangeCompareLoop,
          Field.partial_cmp, Field.ty, Field.as_integer, compare, compareOfLessAndEq,
          List.map, List.zip, List.zipWith, List.length])
    simp
  · simp [twoLevelIndex, allCells, allCellsList]

/-- Claim C6, refuted (evidence for the code bug): a serial-type-1 field
whose payload byte is 0xFF materializes through `as_integer` as the `u64`
255 — `Field::from_bytes` widens the byte with `as u64`, zero-extending —
not as the sign-extended −1 (which as a `u64` bit pattern would be
`2 ^ 64 - 1`); likewise serial type 2 on `FF FE` gives 65534, not −2. -/
theorem C6_integer_fields_zero_extended :
    Record.from_bytes [2, 1, 255] = .ok ⟨[.literal (.integer 255)]⟩ ∧
      (Field.literal (.integer 255)).as_integer = .ok 255 ∧
      Record.from_bytes [2, 2, 255, 254] = .ok ⟨[.literal (.integer 65534)]⟩ ∧
      (255 : Nat) ≠ 2 ^ 64 - 1 ∧ (65534 : Nat) ≠ 2 ^ 64 - 2 := by
  refine ⟨?_, rfl, ?_, by decide, by decide⟩ <;>
    simp [Record.from_bytes, readSerialTypes, readSerialTypesGo, readVarint, readVarintAux,
      fieldTypeOfSerial, buildFields, Field.from_bytes, FieldType.size_of, byteAt, be16]

/-- Claim C10, confirmed: `Pager::get_page` computes `number - 1` before any
validation, so `get_page(0)` aborts on the unsigned underflow (debug
semantics of the `-`) and never returns a page; the page number is never
compared against `num_pages` — the result depends on the header only through
`page_size` — so a request past the end of the file surfaces only as the
`read_exact` I/O error. -/
theorem C10_get_page_unvalidated :
    (∀ (file : List Nat) (h : DbHeader), Pager.get_page file h 0 = .error .panicArith) ∧
      (∀ (file : List Nat) (h₁ h₂ : DbHeader) (n : Nat),
        h₁.page_size = h₂.page_size →
        Pager.get_page file h₁ n = Pager.get_page file h₂ n) ∧
      (∀ (file : List Nat) (h : DbHeader) (n : Nat), 1 ≤ n →
        file.length < n * h.page_size → Pager.get_page file h n = .error .ioError) := by
  refine ⟨fun file h => rfl, fun file h₁ h₂ n hps => by simp [Pager.get_page, hps], ?_⟩
  intro file h n hn hlen
  obtain ⟨m, rfl⟩ : ∃ m, n = m + 1 := ⟨n - 1, by omega⟩
  have hm : (m + 1) * h.page_size = m * h.page_size + h.page_size := by
    rw [Nat.succ_mul]
  rw [Pager.get_page]
  simp only [Nat.add_sub_cancel, if_neg (by omega : ¬ m + 1 = 0)]
  rw [if_pos (by omega)]

/-- Witness for C10 at a concrete pager: page size 1 over a one-byte file. -/
theorem C10_get_page_unvalidated_witness :
    Pager.get_page [7] ⟨1, 0, 9⟩ 0 = .error .panicArith ∧
      Pager.get_page [7] ⟨1, 0, 9⟩ 2 = .error .ioError := by
  constructor
  · exact C10_get_page_unvalidated.1 [7] ⟨1, 0, 9⟩
  · exact C10_get_page_unvalidated.2.2 [7] ⟨1, 0, 9⟩ 2 (by decide) (by decide)

/-- Claim C7, corrected: a record parse failure reached through
`PageIter::next` is `unwrap`ped — the operation dies by abort, the failure
is not returned to the caller as an error value.  `reservedSerialPage`
holds one cell whose record uses reserved serial type 10; decoding the cell
returns an error value, and stepping the page iterator over it turns that
error into an abort. -/
theorem C7_page_iter_panics_on_parse_failure :
    TableLeafCell.from_bytes (reservedSerialPage.cell 0) =
        .error (.reservedSerialType 10) ∧
      pageIterNext TableLeafCell.from_bytes reservedSerialPage 0 =
        .error (.panicUnwrap (.reservedSerialType 10)) ∧
      Failure.isPanic (.panicUnwrap (.reservedSerialType 10)) = true ∧
      Failure.isPanic (.reservedSerialType 10) = false := by
  have hcell : TableLeafCell.from_bytes (reservedSerialPage.cell 0) =
      .error (.reservedSerialType 10) := by
    simp [reservedSerialPage, Page.cell, be16, byteAt, TableLeafCell.from_bytes,
      readVarint, readVarintAux, Record.from_bytes, readSerialTypes, readSerialTypesGo,
      fieldTypeOfSerial]
  refine ⟨hcell, ?_, by decide, by decide⟩
  rw [pageIterNext, if_neg (by simp [reservedSerialPage, Page.len, be16, byteAt]), hcell]

/-- Claim C7 as amended: parse-time failures while decoding a cell or record
are fatal to the operation and are not retried, but the two paths differ in
kind: a failing decode inside `PageIter::next` aborts the process (the
`unwrap` panic carrying the decode failure), while a direct call to the
decoder — here `Record::from_bytes` on a header with reserved serial type
10 or 11 — returns the failure to its caller as an error value. -/
theorem C7_parse_failures_fatal_not_retried :
    (∀ (C : Type) (decode : List Nat → Except Failure C) (p : Page) (idx : Nat)
        (e : Failure), idx ≠ p.len → decode (p.cell idx) = .error e →
        pageIterNext decode p idx = .error (.panicUnwrap e)) ∧
      (∀ s payload, s = 10 ∨ s = 11 →
        Record.from_bytes (2 :: s :: payload) = .error (.reservedSerialType s) ∧
          Failure.isPanic (.reservedSerialType s) = false) := by
  constructor
  · intro C decode p idx e hidx hdec
    rw [pageIterNext, if_neg hidx, hdec]
  · rintro s payload (rfl | rfl) <;>
      exact ⟨by simp [Record.from_bytes, readVarint, readVarintAux, readSerialTypes,
        readSerialTypesGo, fieldTypeOfSerial], by decide⟩

/-- Witness for the amended C7 at the concrete page and record. -/
theorem C7_parse_failures_fatal_not_retried_witness :
    pageIterNext TableLeafCell.from_bytes reservedSerialPage 0 =
        .error (.panicUnwrap (.reservedSerialType 10)) ∧
      Record.from_bytes [2, 10] = .error (.reservedSerialType 10) := by
  constructor
  · refine C7_parse_failures_fatal_not_retried.1 _ TableLeafCell.from_bytes
      reservedSerialPage 0 (.reservedSerialType 10) ?_ ?_
    · simp [reservedSerialPage, Page.len, be16, byteAt]
    · simp [reservedSerialPage, Page.cell, be16, byteAt, TableLeafCell.from_bytes,
        readVarint, readVarintAux, Record.from_bytes, readSerialTypes, readSerialTypesGo,
        fieldTypeOfSerial]
  · exact (C7_parse_failures_fatal_not_retried.2 10 [] (Or.inl rfl)).1

/-- Claim C4, confirmed: over any table or index B-tree — any key type with
its interior- and leaf-key functions — whose pages satisfy the data-model
invariants (`WfNode`), the full scan `iter()` returns exactly the list of
leaf cells of the tree, left to right (hence each exactly once), and that
list is strictly ascending in key.  `btreeIter` is a total Lean function:
the termination argument is the `iterMeasure` decrease proved for every
cursor step. -/
theorem C4_full_scan_complete_sorted {K I L : Type} [LinearOrder K]
    (ikey : I → K) (lkey : L → K) (t : BNode I L)
    (h : WfNode ikey lkey none t) :
    btreeIter ikey lkey t = allCells t ∧
      (allCells t).Pairwise (fun a b => lkey a < lkey b) := by
  constructor
  · have hl : (descend ⟨[], none, .inRange⟩ t : IterState I L).lastComparison =
        .inRange := by
      cases t <;> simp [descend]
    rw [btreeIter, iterRange, btreeRunAll_eq ikey lkey _ hl, stateCells_descend]
    simp
  · exact (wfNode_sorted h).1

/-- Witness for C4 on a concrete two-level table-shaped tree. -/
theorem C4_full_scan_complete_sorted_witness :
    btreeIter (fun i : Nat => i) (fun l : Nat => l)
        (BNode.interior [(2, BNode.leaf [1, 2])] (BNode.leaf [3])) = [1, 2, 3] ∧
      ([1, 2, 3] : List Nat).Pairwise (fun a b => a < b) := by
  have hwf : WfNode (fun i : Nat => i) (fun l : Nat => l) none
      (BNode.interior [(2, BNode.leaf [1, 2])] (BNode.leaf [3])) := by
    refine WfNode.interior _ _ _
      (WfCells.cons _ _ _ _ _ ?_ (WfNode.leaf _ _ ?_ ?_) ?_
        (WfCells.nil _ _ (WfNode.leaf _ _ ?_ ?_)))
    · simp [OBelow]
    · decide
    · intro x hx
      simp [OBelow]
    · intro x hx
      simp only [allCells, List.mem_cons, List.not_mem_nil, or_false] at hx
      rcases hx with rfl | rfl <;> decide
    · decide
    · intro x hx
      simp only [List.mem_singleton] at hx
      subst hx
      simp [OBelow]
  have h := C4_full_scan_complete_sorted (fun i : Nat => i) (fun l : Nat => l) _ hwf
  constructor
  · rw [h.1]
    simp [allCells, allCellsList]
  · decide

/-- Claim C9, confirmed: `read_varint` consumes between 1 and 9 bytes.  It
accumulates the low 7 bits of each of up to 8 bytes and stops at the first
byte whose high bit is clear; if all 8 high bits were set it appends all
8 bits of a 9th byte — in particular nine `0xff` bytes decode to
`0xffffffffffffffff` — and it fails with `InvalidVarint` exactly when the
input ends before a terminating byte is read. -/
theorem C9_read_varint_spec :
    ∀ data : List Nat,
      (∀ v n, readVarint data = .ok (v, n) → 1 ≤ n ∧ n ≤ 9 ∧ n ≤ data.length) ∧
      (∀ i, i < 8 → i < data.length → (∀ j, j < i → 128 ≤ byteAt data j) →
        byteAt data i < 128 →
        readVarint data = .ok (varintAcc (data.take (i + 1)), i + 1)) ∧
      (9 ≤ data.length → (∀ j, j < 8 → 128 ≤ byteAt data j) →
        readVarint data =
          .ok ((varintAcc (data.take 8) * 256 + byteAt data 8) % 2 ^ 64, 9)) ∧
      (readVarint data = .error .invalidVarint ↔
        data.length < 9 ∧ ∀ i, i < data.length → i < 8 → 128 ≤ byteAt data i) ∧
      readVarint (List.replicate 9 255) = .ok (2 ^ 64 - 1, 9) := by
  intro data
  refine ⟨?_, ?_, ?_, ?_, rfl⟩
  · intro v n h
    exact readVarint_ok_bounds h
  · intro i hi8 hilen hprev hlow
    rw [readVarint, readVarintAux_stop i data 8 0 0 hi8 hilen hprev hlow]
    simp [varintAcc]
  · intro hlen hhigh
    rw [readVarint, readVarintAux_all_high 8 data 0 0 (by omega) hhigh]
    simp [varintAcc]
  · rw [readVarint, readVarintAux_error_iff 8 data 0 0]

/-- Witness for C9: a two-byte varint stops at its clear-high-bit second
byte, and a lone continuation byte is a truncation error. -/
theorem C9_read_varint_spec_witness :
    readVarint [129, 0] = .ok (128, 2) ∧
      readVarint [129] = .error .invalidVarint := by
  constructor
  · have h := (C9_read_varint_spec [129, 0]).2.1 1 (by omega) (by decide)
      (by decide) (by decide)
    rw [h]
    rfl
  · exact ((C9_read_varint_spec [129]).2.2.2.1).mpr (by decide)

end Rqlite
